import Mathlib

/-!
Shallow embedding of the technical-indicator library in
`src/database/metrics.py` (class `TechnicalIndicators`).

Modelling conventions:
* IEEE-754 doubles are modelled by `ℚ`; a not-a-number / non-finite entry
  (pandas' NaN warm-up marker, or the result of an unguarded division by
  zero) is modelled by `none` in `Option ℚ`.
* `pd.Series(x).rolling(window=p).mean()` (min_periods defaults to the
  window) is defined at index `i` iff `p ≥ 1 ∧ i ≥ p-1`, with value the
  arithmetic mean of the trailing inclusive window of `p` samples; this is
  `rollingMean`.  Rolling `.max()`/`.min()`/`.std()` are analogous.
* `pd.Series(x).ewm(span=p, adjust=False).mean()` is the recurrence
  `y 0 = x 0`, `y i = α * x i + (1-α) * y (i-1)` with `α = 2/(p+1)`; this is
  `ema`.
* `np.sqrt` (inside the rolling sample standard deviation) is modelled by
  `Rat.sqrt`; no claim below depends on its values, only on lengths and on
  the defined/undefined pattern.
* The float literal `1e-10` used as ε-guard is modelled by the rational
  `1/10^10`.
-/

namespace TechnicalIndicators

/-- The ε-guard constant `1e-10` used throughout `metrics.py`. -/
def eps : ℚ := 1 / 10 ^ 10

/-- The trailing inclusive window of `p` samples ending at index `i`:
`s[i-p+1..i]`, i.e. `(s.take (i+1)).drop (i+1-p)`. -/
def windowSlice (s : List ℚ) (p i : ℕ) : List ℚ :=
  (s.take (i + 1)).drop (i + 1 - p)

/-- `pd.Series(s).rolling(window=p).mean().values`: defined (some) at index
`i` iff `1 ≤ p` and `p ≤ i+1`; NaN (`none`) otherwise. -/
def rollingMean (s : List ℚ) (p : ℕ) : List (Option ℚ) :=
  (List.range s.length).map (fun i =>
    if 1 ≤ p ∧ p ≤ i + 1 then some ((windowSlice s p i).sum / p) else none)

/-- `pd.Series(s).rolling(window=p).max().values`. -/
def rollingMax (s : List ℚ) (p : ℕ) : List (Option ℚ) :=
  (List.range s.length).map (fun i =>
    if 1 ≤ p ∧ p ≤ i + 1 then
      match windowSlice s p i with
      | [] => none
      | x :: xs => some (xs.foldl max x)
    else none)

/-- `pd.Series(s).rolling(window=p).min().values`. -/
def rollingMin (s : List ℚ) (p : ℕ) : List (Option ℚ) :=
  (List.range s.length).map (fun i =>
    if 1 ≤ p ∧ p ≤ i + 1 then
      match windowSlice s p i with
      | [] => none
      | x :: xs => some (xs.foldl min x)
    else none)

/-- `pd.Series(s).rolling(window=p).std().values` (sample standard
deviation, ddof = 1), with `np.sqrt` modelled by `Rat.sqrt`.  No claim
depends on the numeric value, only on length and definedness. -/
def rollingStd (s : List ℚ) (p : ℕ) : List (Option ℚ) :=
  (List.range s.length).map (fun i =>
    if 1 ≤ p ∧ p ≤ i + 1 then
      some (Rat.sqrt
        (((windowSlice s p i).map
            (fun x => (x - (windowSlice s p i).sum / p) ^ 2)).sum
          / ((p : ℚ) - 1)))
    else none)

/-- Rolling mean over a series that may contain NaN entries (pandas yields
NaN whenever the window is incomplete or contains a NaN).  Used for the
Stochastic %D line, which averages the NaN-carrying %K line. -/
def rollingMeanO (s : List (Option ℚ)) (p : ℕ) : List (Option ℚ) :=
  (List.range s.length).map (fun i =>
    if 1 ≤ p ∧ p ≤ i + 1 ∧ (((s.take (i + 1)).drop (i + 1 - p)).all Option.isSome) then
      some ((((s.take (i + 1)).drop (i + 1 - p)).reduceOption).sum / p)
    else none)

/-- One step of the `adjust=False` exponential weighted mean recurrence. -/
def ewmStep (α prev x : ℚ) : ℚ := α * x + (1 - α) * prev

/-- Tail of the `ewm(span, adjust=False).mean()` recurrence, carrying the
previous output value. -/
def ewmAux (α prev : ℚ) : List ℚ → List ℚ
  | [] => []
  | x :: xs => ewmStep α prev x :: ewmAux α (ewmStep α prev x) xs

/-- `pd.Series(data).ewm(span=period, adjust=False).mean().values`:
`y 0 = x 0`, `y i = α·x i + (1-α)·y (i-1)` with `α = 2/(period+1)`. -/
def ema (data : List ℚ) (period : ℕ) : List ℚ :=
  match data with
  | [] => []
  | x :: xs => x :: ewmAux (2 / ((period : ℚ) + 1)) x xs

/-- `TechnicalIndicators.sma`: simple moving average. -/
def sma (data : List ℚ) (period : ℕ) : List (Option ℚ) :=
  rollingMean data period

/-- `TechnicalIndicators.rsi`: `delta = np.diff(data)`; gains/losses;
rolling means over `period`; `rs = avg_gain / (avg_loss + 1e-10)`;
`rsi = 100 - 100/(1+rs)`.  The output has the length of `delta`, i.e. one
less than the input. -/
def rsi (data : List ℚ) (period : ℕ) : List (Option ℚ) :=
  let delta := List.zipWith (fun a b => a - b) data.tail data
  let gain := delta.map (fun d => if 0 < d then d else 0)
  let loss := delta.map (fun d => if d < 0 then -d else 0)
  List.zipWith (fun g l =>
    match g, l with
    | some g, some l => some (100 - 100 / (1 + g / (l + eps)))
    | _, _ => none) (rollingMean gain period) (rollingMean loss period)

/-- `TechnicalIndicators.macd`: returns (MACD line, signal line, histogram). -/
def macd (data : List ℚ) (fast slow signal : ℕ) :
    List ℚ × List ℚ × List ℚ :=
  let macd_line := List.zipWith (fun a b => a - b) (ema data fast) (ema data slow)
  let signal_line := ema macd_line signal
  (macd_line, signal_line, List.zipWith (fun a b => a - b) macd_line signal_line)

/-- `TechnicalIndicators.bollinger_bands`: returns (upper, middle, lower);
NaN (`none`) propagates through the elementwise band arithmetic. -/
def bollinger_bands (data : List ℚ) (period : ℕ) (std_dev : ℚ) :
    List (Option ℚ) × List (Option ℚ) × List (Option ℚ) :=
  let middle_band := rollingMean data period
  let std := rollingStd data period
  let upper_band := List.zipWith (fun m s =>
    match m, s with
    | some m, some s => some (m + s * std_dev)
    | _, _ => none) middle_band std
  let lower_band := List.zipWith (fun m s =>
    match m, s with
    | some m, some s => some (m - s * std_dev)
    | _, _ => none) middle_band std
  (upper_band, middle_band, lower_band)

/-- `TechnicalIndicators.stochastic`: returns (%K, %D);
`%K = 100·(close − rolling min(low)) / (rolling max(high) − rolling min(low) + ε)`,
`%D = rolling mean(%K, 3)` with NaN propagation. -/
def stochastic (high low close : List ℚ) (period : ℕ) :
    List (Option ℚ) × List (Option ℚ) :=
  let k_line := List.zipWith (fun hl c =>
    match hl.1, hl.2 with
    | some hh, some ll => some (100 * (c - ll) / (hh - ll + eps))
    | _, _ => none) ((rollingMax high period).zip (rollingMin low period)) close
  (k_line, rollingMeanO k_line 3)

/-- `np.roll(s, 1)`: rotate right by one, so index 0 receives the last
element of `s`. -/
def roll1 (s : List ℚ) : List ℚ :=
  match s with
  | [] => []
  | _ :: _ => s.getD (s.length - 1) 0 :: s.dropLast

/-- The true-range series of `TechnicalIndicators.atr`:
`max(high−low, |high − np.roll(close,1)|, |low − np.roll(close,1)|)`. -/
def trueRange (high low close : List ℚ) : List ℚ :=
  List.zipWith (fun hl pc =>
    max (hl.1 - hl.2) (max |hl.1 - pc| |hl.2 - pc|))
    (high.zip low) (roll1 close)

/-- `TechnicalIndicators.atr`: rolling mean of the true-range series. -/
def atr (high low close : List ℚ) (period : ℕ) : List (Option ℚ) :=
  rollingMean (trueRange high low close) period

/-- The body of the OBV loop: `obv[i-1] + volume[i]` when the close rose,
`obv[i-1] - volume[i]` when it fell, else `obv[i-1]`. -/
def obvStep (prevC c prevO v : ℚ) : ℚ :=
  if prevC < c then prevO + v else if c < prevC then prevO - v else prevO

/-- Tail of the OBV recurrence, carrying the previous close and previous
OBV value. -/
def obvAux (prevC prevO : ℚ) : List ℚ → List ℚ → List ℚ
  | c :: cs, v :: vs => obvStep prevC c prevO v :: obvAux c (obvStep prevC c prevO v) cs vs
  | _, _ => []

/-- `TechnicalIndicators.obv`: `obv[0] = volume[0]`, then the signed
cumulative sum driven by the close-to-close comparison. -/
def obv (close volume : List ℚ) : List ℚ :=
  match close, volume with
  | c :: cs, v :: vs => v :: obvAux c v cs vs
  | _, _ => []

/-- `TechnicalIndicators.roc`: `np.zeros` warm-up (value `0`) for
`i < period`, then `100·(data[i]−data[i−period])/data[i−period]`.  The
unguarded division is modelled with `none` for a zero divisor (IEEE gives
±inf, or NaN when the numerator is also zero). -/
def roc (data : List ℚ) (period : ℕ) : List (Option ℚ) :=
  (List.range data.length).map (fun i =>
    if i < period then some 0
    else if data.getD (i - period) 0 = 0 then none
    else some ((data.getD i 0 - data.getD (i - period) 0) / data.getD (i - period) 0 * 100))

/-- `TechnicalIndicators.apo`: `EMA(fast) − EMA(slow)`. -/
def apo (data : List ℚ) (fast slow : ℕ) : List ℚ :=
  List.zipWith (fun a b => a - b) (ema data fast) (ema data slow)

/-- `np.cumsum`. -/
def cumsum (s : List ℚ) : List ℚ :=
  (s.scanl (fun a b => a + b) 0).tail

/-- `TechnicalIndicators.vwap`:
`cumsum(typical_price·volume) / cumsum(volume)` with no guard on the
divisor; a zero cumulative volume is modelled with `none` (IEEE yields a
non-finite value there — NaN when the numerator is also zero). -/
def vwap (high low close volume : List ℚ) : List (Option ℚ) :=
  let typical_price := List.zipWith (fun hl c => (hl.1 + hl.2 + c) / 3)
    (high.zip low) close
  List.zipWith (fun num den => if den = 0 then none else some (num / den))
    (cumsum (List.zipWith (fun a b => a * b) typical_price volume))
    (cumsum volume)

/-- `TechnicalIndicators.williams_r`:
`−100·(rolling max(high) − close) / (rolling max(high) − rolling min(low) + ε)`. -/
def williams_r (high low close : List ℚ) (period : ℕ) : List (Option ℚ) :=
  List.zipWith (fun hl c =>
    match hl.1, hl.2 with
    | some hh, some ll => some (-100 * (hh - c) / (hh - ll + eps))
    | _, _ => none) ((rollingMax high period).zip (rollingMin low period)) close

/-- `TechnicalIndicators.cci`:
`(typical_price − SMA(tp)) / (0.015·rolling std(tp) + ε)`. -/
def cci (high low close : List ℚ) (period : ℕ) : List (Option ℚ) :=
  let typical_price := List.zipWith (fun hl c => (hl.1 + hl.2 + c) / 3)
    (high.zip low) close
  List.zipWith (fun t ms =>
    match ms.1, ms.2 with
    | some m, some sd => some ((t - m) / (3 / 200 * sd + eps))
    | _, _ => none)
    typical_price ((rollingMean typical_price period).zip (rollingStd typical_price period))

/-- The Python-level call `TechnicalIndicators.sma(data, period)` for a
window `period ≥ 1`: pandas' rolling mean raises no exception for any input
series (the empty series included), so the call always returns the computed
array — there is no validation/error path in the code. -/
def sma_call (data : List ℚ) (period : ℕ) : Except Unit (List (Option ℚ)) :=
  Except.ok (sma data period)

/-! ### Length lemmas -/

@[simp]
lemma rollingMean_length (s : List ℚ) (p : ℕ) : (rollingMean s p).length = s.length := by
  simp [rollingMean]

@[simp]
lemma rollingMax_length (s : List ℚ) (p : ℕ) : (rollingMax s p).length = s.length := by
  simp [rollingMax]

@[simp]
lemma rollingMin_length (s : List ℚ) (p : ℕ) : (rollingMin s p).length = s.length := by
  simp [rollingMin]

@[simp]
lemma rollingStd_length (s : List ℚ) (p : ℕ) : (rollingStd s p).length = s.length := by
  simp [rollingStd]

@[simp]
lemma rollingMeanO_length (s : List (Option ℚ)) (p : ℕ) :
    (rollingMeanO s p).length = s.length := by
  simp [rollingMeanO]

@[simp]
lemma ewmAux_length (α prev : ℚ) (xs : List ℚ) : (ewmAux α prev xs).length = xs.length := by
  induction xs generalizing prev with
  | nil => rfl
  | cons x xs ih => simp [ewmAux, ih]

@[simp]
lemma ema_length (s : List ℚ) (p : ℕ) : (ema s p).length = s.length := by
  cases s with
  | nil => rfl
  | cons x xs => simp [ema]

@[simp]
lemma roll1_length (s : List ℚ) : (roll1 s).length = s.length := by
  cases s with
  | nil => rfl
  | cons x xs => simp [roll1]

@[simp]
lemma obvAux_length (prevC prevO : ℚ) (cs vs : List ℚ) :
    (obvAux prevC prevO cs vs).length = min cs.length vs.length := by
  induction cs generalizing vs prevC prevO with
  | nil => cases vs <;> rfl
  | cons c cs ih =>
    cases vs with
    | nil => rfl
    | cons v vs => simp [obvAux, ih]; omega

@[simp]
lemma obv_length (close volume : List ℚ) :
    (obv close volume).length = min close.length volume.length := by
  cases close with
  | nil => cases volume <;> rfl
  | cons c cs =>
    cases volume with
    | nil => rfl
    | cons v vs => simp [obv]; omega

@[simp]
lemma cumsum_length (s : List ℚ) : (cumsum s).length = s.length := by
  simp [cumsum, List.length_scanl]

/-! ### Window lemmas -/

lemma windowSlice_length (s : List ℚ) (p i : ℕ) (hp : 1 ≤ p) (hpi : p ≤ i + 1)
    (hi : i < s.length) : (windowSlice s p i).length = p := by
  simp [windowSlice]
  omega

/-- The trailing window at index `i`, written with explicit indices: entry
`j` of the window is `s[i-p+1+j]`. -/
lemma windowSlice_eq_map (s : List ℚ) (p i : ℕ) (hp : 1 ≤ p) (hpi : p ≤ i + 1)
    (hi : i < s.length) :
    windowSlice s p i = (List.range p).map (fun j => s.getD (i + 1 - p + j) 0) := by
  apply List.ext_getElem
  · rw [windowSlice_length s p i hp hpi hi]; simp
  · intro j h1 h2
    have hjp : j < p := by
      have := windowSlice_length s p i hp hpi hi
      omega
    have hidx : i + 1 - p + j < s.length := by omega
    simp only [windowSlice, List.getElem_drop, List.getElem_take, List.getElem_map,
      List.getElem_range]
    rw [List.getD_eq_getElem _ _ hidx]

lemma self_mem_windowSlice (s : List ℚ) (p i : ℕ) (hp : 1 ≤ p) (hpi : p ≤ i + 1)
    (hi : i < s.length) : s.getD i 0 ∈ windowSlice s p i := by
  rw [windowSlice_eq_map s p i hp hpi hi]
  refine List.mem_map.mpr ⟨p - 1, List.mem_range.mpr (by omega), ?_⟩
  congr 1
  omega

/-! ### Fold bounds for rolling max / min -/

lemma seed_le_foldl_max (l : List ℚ) (a : ℚ) : a ≤ l.foldl max a := by
  induction l generalizing a with
  | nil => simp
  | cons b t ih => exact le_trans (le_max_left a b) (ih (max a b))

lemma mem_le_foldl_max (l : List ℚ) (a x : ℚ) (hx : x ∈ l) : x ≤ l.foldl max a := by
  induction l generalizing a with
  | nil => simp at hx
  | cons b t ih =>
    rcases List.mem_cons.mp hx with h | h
    · subst h
      exact le_trans (le_max_right a x) (seed_le_foldl_max t (max a x))
    · exact ih (max a b) h

lemma foldl_min_le_seed (l : List ℚ) (a : ℚ) : l.foldl min a ≤ a := by
  induction l generalizing a with
  | nil => simp
  | cons b t ih => exact le_trans (ih (min a b)) (min_le_left a b)

lemma foldl_min_le_mem (l : List ℚ) (a x : ℚ) (hx : x ∈ l) : l.foldl min a ≤ x := by
  induction l generalizing a with
  | nil => simp at hx
  | cons b t ih =>
    rcases List.mem_cons.mp hx with h | h
    · subst h
      exact le_trans (foldl_min_le_seed t (min a x)) (min_le_right a x)
    · exact ih (min a b) h

/-! ### Pointwise access to the rolling primitives -/

lemma rollingMean_getD (s : List ℚ) (p i : ℕ) (hi : i < s.length) (d : Option ℚ) :
    (rollingMean s p).getD i d =
      if 1 ≤ p ∧ p ≤ i + 1 then some ((windowSlice s p i).sum / p) else none := by
  rw [List.getD_eq_getElem _ _ (by simpa using hi)]
  simp [rollingMean]

lemma rollingMax_getD (s : List ℚ) (p i : ℕ) (hi : i < s.length) (d : Option ℚ) :
    (rollingMax s p).getD i d =
      if 1 ≤ p ∧ p ≤ i + 1 then
        match windowSlice s p i with
        | [] => none
        | x :: xs => some (xs.foldl max x)
      else none := by
  rw [List.getD_eq_getElem _ _ (by simpa using hi)]
  simp [rollingMax]

lemma rollingMin_getD (s : List ℚ) (p i : ℕ) (hi : i < s.length) (d : Option ℚ) :
    (rollingMin s p).getD i d =
      if 1 ≤ p ∧ p ≤ i + 1 then
        match windowSlice s p i with
        | [] => none
        | x :: xs => some (xs.foldl min x)
      else none := by
  rw [List.getD_eq_getElem _ _ (by simpa using hi)]
  simp [rollingMin]

/-- `getD` through a binary `zipWith`, for indices inside both lists. -/
lemma zipWith_getD {α β γ : Type} [Inhabited γ] (f : α → β → γ) (a : List α) (b : List β)
    (i : ℕ) (ha : i < a.length) (hb : i < b.length) (da : α) (db : β) (d : γ) :
    (List.zipWith f a b).getD i d = f (a.getD i da) (b.getD i db) := by
  rw [List.getD_eq_getElem _ _ (by simp; omega),
    List.getD_eq_getElem _ _ ha, List.getD_eq_getElem _ _ hb]
  exact List.getElem_zipWith

/-! ### The EWM recurrence, index-wise -/

lemma ewmAux_getD_succ (α : ℚ) (xs : List ℚ) :
    ∀ (prev : ℚ) (i : ℕ), i < xs.length →
      (prev :: ewmAux α prev xs).getD (i + 1) 0 =
        ewmStep α ((prev :: ewmAux α prev xs).getD i 0) (xs.getD i 0) := by
  induction xs with
  | nil => intro prev i hi; simp at hi
  | cons x xs ih =>
    intro prev i hi
    cases i with
    | zero => simp [ewmAux]
    | succ j =>
      have hj : j < xs.length := by simpa using hi
      simpa [ewmAux, List.getD_cons_succ] using ih (ewmStep α prev x) j hj

lemma ema_getD_zero (s : List ℚ) (p : ℕ) (hs : s ≠ []) :
    (ema s p).getD 0 0 = s.getD 0 0 := by
  cases s with
  | nil => exact absurd rfl hs
  | cons x xs => rfl

lemma ema_getD_succ (s : List ℚ) (p : ℕ) (i : ℕ) (hi : i + 1 < s.length) :
    (ema s p).getD (i + 1) 0 =
      ewmStep (2 / ((p : ℚ) + 1)) ((ema s p).getD i 0) (s.getD (i + 1) 0) := by
  cases s with
  | nil => simp at hi
  | cons x xs =>
    have hx : i < xs.length := by simpa using hi
    simpa [ema, List.getD_cons_succ] using
      ewmAux_getD_succ (2 / ((p : ℚ) + 1)) xs x i hx

/-! ### The OBV recurrence, index-wise -/

lemma obvAux_getD_succ :
    ∀ (cs vs : List ℚ) (prevC prevO : ℚ) (i : ℕ), i < cs.length → i < vs.length →
      (prevO :: obvAux prevC prevO cs vs).getD (i + 1) 0 =
        obvStep (if i = 0 then prevC else cs.getD (i - 1) 0) (cs.getD i 0)
          ((prevO :: obvAux prevC prevO cs vs).getD i 0) (vs.getD i 0) := by
  intro cs
  induction cs with
  | nil => intro vs pC pO i hc _; simp at hc
  | cons c cs ih =>
    intro vs pC pO i hc hv
    cases vs with
    | nil => simp at hv
    | cons v vs =>
      cases i with
      | zero => simp [obvAux]
      | succ j =>
        have hc' : j < cs.length := by simpa using hc
        have hv' : j < vs.length := by simpa using hv
        have h := ih vs c (obvStep pC c pO v) j hc' hv'
        simp only [obvAux, List.getD_cons_succ, Nat.succ_sub_one] at h ⊢
        rw [h]
        cases j with
        | zero => simp
        | succ k => simp

lemma rollingMean_getElem (s : List ℚ) (p i : ℕ) (h : i < (rollingMean s p).length) :
    (rollingMean s p)[i] =
      if 1 ≤ p ∧ p ≤ i + 1 then some ((windowSlice s p i).sum / p) else none := by
  simp [rollingMean]

/-- The RSI warm-up: below index `p-1` both rolling averages are NaN, so the
RSI entry is NaN. -/
lemma rsi_getD_warmup (s : List ℚ) (p i : ℕ) (hi : i < s.length - 1) (hip : i + 1 < p) :
    (rsi s p).getD i (some 0) = none := by
  have hlen : (rsi s p).length = s.length - 1 := by
    simp only [rsi, List.length_zipWith, rollingMean_length, List.length_map,
      List.length_tail]
    omega
  rw [List.getD_eq_getElem _ _ (by omega)]
  simp only [rsi]
  rw [List.getElem_zipWith]
  rw [rollingMean_getElem _ p i (by simp; omega),
    rollingMean_getElem _ p i (by simp; omega), if_neg (by omega), if_neg (by omega)]

/-! ### Claim theorems -/

/-- C2: for every series `s` of length `n` and period `p ≥ 1`, `sma(s,p)[i]`
is the arithmetic mean of `s[i-p+1..i]` for every `i ≥ p-1`, is the NaN
marker for every `i < p-1`, and when `n < p` the output is NaN at every
index. -/
theorem sma_trailing_window (s : List ℚ) (p n : ℕ) (hs : s.length = n) (hp : 1 ≤ p) :
    (∀ i, i < n → p ≤ i + 1 →
      (sma s p).getD i (some 0) =
        some (((List.range p).map (fun j => s.getD (i + 1 - p + j) 0)).sum / p)) ∧
    (∀ i, i < n → i + 1 < p → (sma s p).getD i (some 0) = none) ∧
    (n < p → ∀ i, i < n → (sma s p).getD i (some 0) = none) := by
  subst hs
  refine ⟨?_, ?_, ?_⟩
  · intro i hi hpi
    rw [show sma s p = rollingMean s p from rfl, rollingMean_getD s p i hi,
      if_pos ⟨hp, hpi⟩, windowSlice_eq_map s p i hp hpi hi]
  · intro i hi hip
    rw [show sma s p = rollingMean s p from rfl, rollingMean_getD s p i hi,
      if_neg (by omega)]
  · intro hn i hi
    rw [show sma s p = rollingMean s p from rfl, rollingMean_getD s p i hi,
      if_neg (by omega)]

/-- C2 witness: `sma([10,11,12], 2)` is NaN at index 0 and `23/2` at
index 2. -/
theorem sma_trailing_window_witness :
    ([(10 : ℚ), 11, 12] : List ℚ).length = 3 ∧ 1 ≤ 2 ∧
      (sma [(10 : ℚ), 11, 12] 2).getD 2 (some 0) = some (23 / 2) ∧
      (sma [(10 : ℚ), 11, 12] 2).getD 0 (some 0) = none := by
  refine ⟨rfl, by norm_num, ?_, ?_⟩
  · rw [(sma_trailing_window [(10 : ℚ), 11, 12] 2 3 rfl (by norm_num)).1 2
      (by norm_num) (by norm_num)]
    simp [List.range_succ]
    norm_num
  · exact (sma_trailing_window [(10 : ℚ), 11, 12] 2 3 rfl (by norm_num)).2.1 0
      (by norm_num) (by norm_num)

/-- C3: for every non-empty `s` and `p ≥ 1`, `ema(s,p)` is defined at every
index (full length, no warm-up gap), `ema(s,p)[0] = s[0]`, and
`ema(s,p)[i] = α·s[i] + (1-α)·ema(s,p)[i-1]` with `α = 2/(p+1)` for
`i ≥ 1`. -/
theorem ema_no_warmup_recurrence (s : List ℚ) (p : ℕ) (hs : s ≠ []) (_hp : 1 ≤ p) :
    (ema s p).length = s.length ∧
    (ema s p).getD 0 0 = s.getD 0 0 ∧
    ∀ i, i + 1 < s.length →
      (ema s p).getD (i + 1) 0 =
        2 / ((p : ℚ) + 1) * s.getD (i + 1) 0 +
          (1 - 2 / ((p : ℚ) + 1)) * (ema s p).getD i 0 :=
  ⟨ema_length s p, ema_getD_zero s p hs, fun i hi => ema_getD_succ s p i hi⟩

/-- C3 witness: `ema([4,6], 3)` has `α = 1/2`, so it is `[4, 5]`. -/
theorem ema_no_warmup_recurrence_witness :
    ([(4 : ℚ), 6] : List ℚ) ≠ [] ∧ 1 ≤ 3 ∧
      (ema [(4 : ℚ), 6] 3).getD 0 0 = 4 ∧ (ema [(4 : ℚ), 6] 3).getD 1 0 = 5 := by
  have h := ema_no_warmup_recurrence [(4 : ℚ), 6] 3 (by simp) (by norm_num)
  refine ⟨by simp, by norm_num, ?_, ?_⟩
  · rw [h.2.1]; norm_num
  · rw [h.2.2 0 (by norm_num), h.2.1]; norm_num

/-- C6: `obv(close,volume)[0] = volume[0]` and each step
`obv[i] − obv[i-1]` is `volume[i]`, `−volume[i]`, or `0`, determined solely
by the sign of `close[i] − close[i-1]`. -/
theorem obv_cumulative_steps (close volume : List ℚ)
    (hlen : close.length = volume.length) (hne : close ≠ []) :
    (obv close volume).getD 0 0 = volume.getD 0 0 ∧
    ∀ i, i + 1 < close.length →
      (obv close volume).getD (i + 1) 0 - (obv close volume).getD i 0 =
        if close.getD i 0 < close.getD (i + 1) 0 then volume.getD (i + 1) 0
        else if close.getD (i + 1) 0 < close.getD i 0 then -(volume.getD (i + 1) 0)
        else 0 := by
  cases close with
  | nil => exact absurd rfl hne
  | cons c cs =>
    cases volume with
    | nil => simp at hlen
    | cons v vs =>
      refine ⟨rfl, ?_⟩
      intro i hi
      have hc : i < cs.length := by simpa using hi
      have hv : i < vs.length := by simp at hlen; omega
      have h := obvAux_getD_succ cs vs c v i hc hv
      show (v :: obvAux c v cs vs).getD (i + 1) 0 -
        (v :: obvAux c v cs vs).getD i 0 = _
      rw [h]
      cases i with
      | zero =>
        simp only [if_pos rfl, List.getD_cons_zero, List.getD_cons_succ, obvStep]
        split_ifs <;> ring
      | succ j =>
        simp only [if_neg (Nat.succ_ne_zero j), Nat.succ_sub_one,
          List.getD_cons_succ, obvStep]
        split_ifs <;> ring

/-- C6 witness: `close = [1,2,1,1]`, `volume = [10,20,30,40]` gives steps
`+20`, `−30`, `0` from OBV `[10, 30, 0, 0]`. -/
theorem obv_cumulative_steps_witness :
    ([(1 : ℚ), 2, 1, 1] : List ℚ).length = ([(10 : ℚ), 20, 30, 40] : List ℚ).length ∧
    ([(1 : ℚ), 2, 1, 1] : List ℚ) ≠ [] ∧
    (obv [(1 : ℚ), 2, 1, 1] [10, 20, 30, 40]).getD 0 0 = 10 ∧
    (obv [(1 : ℚ), 2, 1, 1] [10, 20, 30, 40]).getD 1 0 -
      (obv [(1 : ℚ), 2, 1, 1] [10, 20, 30, 40]).getD 0 0 = 20 := by
  have h := obv_cumulative_steps [(1 : ℚ), 2, 1, 1] [10, 20, 30, 40] rfl (by simp)
  refine ⟨rfl, by simp, ?_, ?_⟩
  · rw [h.1]; norm_num
  · rw [h.2 0 (by norm_num)]; norm_num

/-- C7: the three outputs of `macd` satisfy
`macd_line = ema(s,fast) − ema(s,slow)`, `signal_line = ema(macd_line,
signal)` and `histogram[i] = macd_line[i] − signal_line[i]` exactly at every
index. -/
theorem macd_histogram_identity (s : List ℚ) (f sl sg : ℕ) :
    (macd s f sl sg).1 = List.zipWith (fun a b => a - b) (ema s f) (ema s sl) ∧
    (macd s f sl sg).2.1 = ema (macd s f sl sg).1 sg ∧
    (macd s f sl sg).2.2 =
      List.zipWith (fun a b => a - b) (macd s f sl sg).1 (macd s f sl sg).2.1 ∧
    ∀ i, i < s.length →
      (macd s f sl sg).2.2.getD i 0 =
        (macd s f sl sg).1.getD i 0 - (macd s f sl sg).2.1.getD i 0 := by
  refine ⟨rfl, rfl, rfl, ?_⟩
  intro i hi
  have h1 : (macd s f sl sg).1.length = s.length := by simp [macd]
  have h2 : (macd s f sl sg).2.1.length = s.length := by simp [macd]
  exact zipWith_getD (fun a b => a - b) (macd s f sl sg).1 (macd s f sl sg).2.1 i
    (by omega) (by omega) 0 0 0

/-- C7 witness: concrete check at `s = [1, 3]`, periods 1/1/1 (all EMAs
degenerate to the raw series, histogram `0` at index 1). -/
theorem macd_histogram_identity_witness :
    (0 : ℕ) < ([(1 : ℚ), 3] : List ℚ).length ∧
    (macd [(1 : ℚ), 3] 1 1 1).2.2.getD 0 0 =
      (macd [(1 : ℚ), 3] 1 1 1).1.getD 0 0 - (macd [(1 : ℚ), 3] 1 1 1).2.1.getD 0 0 :=
  ⟨by norm_num, (macd_histogram_identity [(1 : ℚ), 3] 1 1 1).2.2.2 0 (by norm_num)⟩

/-- C1 counterexample: the claim says every indicator — rsi in particular —
returns an output of the input's length; but `rsi` on the 3-sample input
`[1,2,3]` returns 2 entries (the `np.diff` step shortens the series and
nothing restores the lost position). -/
theorem rsi_length_counterexample :
    (rsi [(1 : ℚ), 2, 3] 2).length = 2 ∧ ([(1 : ℚ), 2, 3] : List ℚ).length = 3 :=
  ⟨rfl, rfl⟩

/-- C1 (amended): every indicator except `rsi` returns output series of
length exactly `n`; `rsi` returns length `n − 1` (its first-difference step
shortens the series).  Positions with insufficient history carry the NaN
marker, not a truncated array (shown for the rolling-window representative
`sma` and for `rsi` itself). -/
theorem indicator_output_lengths (s high low close volume : List ℚ) (n : ℕ)
    (p f sl sg : ℕ) (k : ℚ)
    (hs : s.length = n) (hh : high.length = n) (hl : low.length = n)
    (hc : close.length = n) (hv : volume.length = n) :
    (sma s p).length = n ∧
    (ema s p).length = n ∧
    (rsi s p).length = n - 1 ∧
    (macd s f sl sg).1.length = n ∧
    (macd s f sl sg).2.1.length = n ∧
    (macd s f sl sg).2.2.length = n ∧
    (bollinger_bands s p k).1.length = n ∧
    (bollinger_bands s p k).2.1.length = n ∧
    (bollinger_bands s p k).2.2.length = n ∧
    (stochastic high low close p).1.length = n ∧
    (stochastic high low close p).2.length = n ∧
    (atr high low close p).length = n ∧
    (obv close volume).length = n ∧
    (roc s p).length = n ∧
    (apo s f sl).length = n ∧
    (vwap high low close volume).length = n ∧
    (williams_r high low close p).length = n ∧
    (cci high low close p).length = n ∧
    (∀ i, i < n → i + 1 < p → (sma s p).getD i (some 0) = none) ∧
    (∀ i, i < n - 1 → i + 1 < p → (rsi s p).getD i (some 0) = none) := by
  refine ⟨?_, ?_, ?_, ?_, ?_, ?_, ?_, ?_, ?_, ?_, ?_, ?_, ?_, ?_, ?_, ?_, ?_, ?_, ?_, ?_⟩
  · simp only [sma, rollingMean_length]; omega
  · simp only [ema_length]; omega
  · simp only [rsi, List.length_zipWith, rollingMean_length, List.length_map,
      List.length_tail]; omega
  · simp only [macd, List.length_zipWith, ema_length]; omega
  · simp only [macd, ema_length, List.length_zipWith]; omega
  · simp only [macd, List.length_zipWith, ema_length]; omega
  · simp only [bollinger_bands, List.length_zipWith, rollingMean_length,
      rollingStd_length]; omega
  · simp only [bollinger_bands, rollingMean_length]; omega
  · simp only [bollinger_bands, List.length_zipWith, rollingMean_length,
      rollingStd_length]; omega
  · simp only [stochastic, List.length_zipWith, List.length_zip, rollingMax_length,
      rollingMin_length]; omega
  · simp only [stochastic, rollingMeanO_length, List.length_zipWith, List.length_zip,
      rollingMax_length, rollingMin_length]; omega
  · simp only [atr, rollingMean_length, trueRange, List.length_zipWith,
      List.length_zip, roll1_length]; omega
  · simp only [obv_length]; omega
  · simp only [roc, List.length_map, List.length_range]; omega
  · simp only [apo, List.length_zipWith, ema_length]; omega
  · simp only [vwap, List.length_zipWith, cumsum_length, List.length_zip]; omega
  · simp only [williams_r, List.length_zipWith, List.length_zip, rollingMax_length,
      rollingMin_length]; omega
  · simp only [cci, List.length_zipWith, List.length_zip, rollingMean_length,
      rollingStd_length]; omega
  · intro i hi hip
    rw [show sma s p = rollingMean s p from rfl, rollingMean_getD s p i (by omega),
      if_neg (by omega)]
  · intro i hi hip
    exact rsi_getD_warmup s p i (by omega) hip

/-- C1 witness: concrete two-sample inputs; every indicator returns 2
entries except `rsi`, which returns 1. -/
theorem indicator_output_lengths_witness :
    ([(1 : ℚ), 2] : List ℚ).length = 2 ∧ ([(3 : ℚ), 4] : List ℚ).length = 2 ∧
    (sma [(1 : ℚ), 2] 14).length = 2 ∧
    (rsi [(1 : ℚ), 2] 14).length = 1 ∧
    (vwap [(1 : ℚ), 2] [(1 : ℚ), 2] [(1 : ℚ), 2] [(3 : ℚ), 4]).length = 2 ∧
    (atr [(1 : ℚ), 2] [(1 : ℚ), 2] [(1 : ℚ), 2] 14).length = 2 := by
  have h := indicator_output_lengths [(1 : ℚ), 2] [(1 : ℚ), 2] [(1 : ℚ), 2]
    [(1 : ℚ), 2] [(3 : ℚ), 4] 2 14 12 26 9 2 rfl rfl rfl rfl rfl
  exact ⟨rfl, rfl, h.1, h.2.2.1, h.2.2.2.2.2.2.2.2.2.2.2.2.2.2.2.1,
    h.2.2.2.2.2.2.2.2.2.2.2.1⟩

/-- C9: `apo(s, fast, slow)` is (pointwise) the MACD line of
`macd(s, fast, slow, signal)` for every signal period — both are
`ema(s,fast) − ema(s,slow)`. -/
theorem apo_eq_macd_line (s : List ℚ) (f sl sg : ℕ) :
    apo s f sl = (macd s f sl sg).1 ∧
    ∀ i, (apo s f sl).getD i 0 = (macd s f sl sg).1.getD i 0 :=
  ⟨rfl, fun _ => rfl⟩

/-- C4: the division guard the claim describes is absent.  On
`high = low = close = [1]`, `volume = [0]` the cumulative volume is `0`, so
`vwap` computes IEEE `0/0` and the single output entry is NaN; likewise
`roc([0,0], 1)` divides by `data[0] = 0` at index 1 (IEEE `0/0`, NaN). -/
theorem vwap_zero_volume_nan :
    vwap [(1 : ℚ)] [(1 : ℚ)] [(1 : ℚ)] [(0 : ℚ)] = [none] ∧
    roc [(0 : ℚ), 0] 1 = [some 0, none] :=
  ⟨by simp [vwap, cumsum, List.scanl], by simp [roc, List.range_succ]⟩

/-- C5 counterexample: the claim says an empty input series is reported
immediately as an input error and no output array is produced; the `sma`
call instead proceeds — pandas raises nothing — and returns the (empty)
output array. -/
theorem sma_empty_not_rejected :
    sma_call ([] : List ℚ) 20 = Except.ok [] :=
  rfl

/-- C5 (amended): the library performs no boundary validation; calling
`sma` on an empty series proceeds without error and returns an empty
(length-0) output array for every window `p ≥ 1`. -/
theorem sma_empty_returns_empty (p : ℕ) (_hp : 1 ≤ p) :
    sma_call ([] : List ℚ) p = Except.ok [] ∧ (sma ([] : List ℚ) p).length = 0 :=
  ⟨rfl, rfl⟩

/-- C5 witness: the amended behaviour at `p = 20` (the code's default). -/
theorem sma_empty_returns_empty_witness :
    1 ≤ 20 ∧ sma_call ([] : List ℚ) 20 = Except.ok [] ∧
      (sma ([] : List ℚ) 20).length = 0 :=
  ⟨by norm_num, (sma_empty_returns_empty 20 (by norm_num)).1,
    (sma_empty_returns_empty 20 (by norm_num)).2⟩

lemma roll1_getD (s : List ℚ) (i : ℕ) (hi : i < s.length) :
    (roll1 s).getD i 0 =
      if i = 0 then s.getD (s.length - 1) 0 else s.getD (i - 1) 0 := by
  cases s with
  | nil => simp at hi
  | cons x xs =>
    cases i with
    | zero => simp [roll1]
    | succ j =>
      have hj : j < (x :: xs).dropLast.length := by
        simp only [List.length_cons] at hi
        simp only [List.length_dropLast, List.length_cons]
        omega
      simp only [roll1, List.getD_cons_succ, Nat.succ_sub_one,
        if_neg (Nat.succ_ne_zero j)]
      rw [List.getD_eq_getElem _ 0 hj,
        List.getD_eq_getElem _ 0
          (show j < (x :: xs).length by
            simp only [List.length_dropLast] at hj
            simp only [List.length_cons] at hj ⊢
            omega)]
      exact List.getElem_dropLast _ _ _

/-- C8: `atr` is the rolling mean over window `p` of the true-range series,
whose entry at index `i` is
`max(high[i]−low[i], |high[i]−prevClose|, |low[i]−prevClose|)` with
`prevClose = close[i-1]` for `i ≥ 1` and — the `np.roll` wrap-around —
`prevClose = close[n-1]` at `i = 0`. -/
theorem atr_wraparound_true_range (high low close : List ℚ) (p n : ℕ)
    (hh : high.length = n) (hl : low.length = n) (hc : close.length = n)
    (_hn : 1 ≤ n) :
    atr high low close p = rollingMean (trueRange high low close) p ∧
    ∀ i, i < n →
      (trueRange high low close).getD i 0 =
        max (high.getD i 0 - low.getD i 0)
          (max
            |high.getD i 0 - (if i = 0 then close.getD (n - 1) 0 else close.getD (i - 1) 0)|
            |low.getD i 0 - (if i = 0 then close.getD (n - 1) 0 else close.getD (i - 1) 0)|) := by
  refine ⟨rfl, ?_⟩
  intro i hi
  have hlen : (trueRange high low close).length = n := by
    simp only [trueRange, List.length_zipWith, List.length_zip, roll1_length]
    omega
  have key : (trueRange high low close).getD i 0 =
      max (high.getD i 0 - low.getD i 0)
        (max |high.getD i 0 - (roll1 close).getD i 0|
          |low.getD i 0 - (roll1 close).getD i 0|) := by
    rw [List.getD_eq_getElem _ _ (show i < (trueRange high low close).length by omega)]
    simp only [trueRange]
    rw [List.getElem_zipWith, List.getElem_zip]
    rw [List.getD_eq_getElem high _ (by omega), List.getD_eq_getElem low _ (by omega),
      List.getD_eq_getElem (roll1 close) _ (by simp; omega)]
  rw [key, roll1_getD close i (by omega), hc]

/-- C8 witness: `high=[2,3]`, `low=[1,2]`, `close=[2,3]` — at index 0 the
previous close is the series' last value 3, so the true range is
`max(1, |2−3|, |1−3|) = 2`. -/
theorem atr_wraparound_true_range_witness :
    ([(2 : ℚ), 3] : List ℚ).length = 2 ∧ (1 : ℕ) ≤ 2 ∧
    (trueRange [(2 : ℚ), 3] [(1 : ℚ), 2] [(2 : ℚ), 3]).getD 0 0 = 2 := by
  refine ⟨rfl, by norm_num, ?_⟩
  rw [(atr_wraparound_true_range [(2 : ℚ), 3] [(1 : ℚ), 2] [(2 : ℚ), 3] 14 2
    rfl rfl rfl (by norm_num)).2 0 (by norm_num)]
  norm_num

lemma rollingMax_getD_window (s : List ℚ) (p i : ℕ) (hp : 1 ≤ p) (hpi : p ≤ i + 1)
    (hi : i < s.length) (x : ℚ) (xs : List ℚ) (hw : windowSlice s p i = x :: xs) :
    (rollingMax s p).getD i none = some (xs.foldl max x) := by
  rw [rollingMax_getD s p i hi, if_pos ⟨hp, hpi⟩, hw]

lemma rollingMin_getD_window (s : List ℚ) (p i : ℕ) (hp : 1 ≤ p) (hpi : p ≤ i + 1)
    (hi : i < s.length) (x : ℚ) (xs : List ℚ) (hw : windowSlice s p i = x :: xs) :
    (rollingMin s p).getD i none = some (xs.foldl min x) := by
  rw [rollingMin_getD s p i hi, if_pos ⟨hp, hpi⟩, hw]

lemma windowSlice_ne_nil (s : List ℚ) (p i : ℕ) (hp : 1 ≤ p) (hpi : p ≤ i + 1)
    (hi : i < s.length) : ∃ x xs, windowSlice s p i = x :: xs := by
  have h := windowSlice_length s p i hp hpi hi
  cases hw : windowSlice s p i with
  | nil => rw [hw] at h; simp at h; omega
  | cons a as => exact ⟨a, as, rfl⟩

/-- The Williams %R entry at a fully-windowed index, in terms of the window
max of `high` and window min of `low`. -/
lemma williams_r_getD (high low close : List ℚ) (p i : ℕ)
    (h1 : i < high.length) (h2 : i < low.length) (h3 : i < close.length) (H L : ℚ)
    (hmax : (rollingMax high p).getD i none = some H)
    (hmin : (rollingMin low p).getD i none = some L) :
    (williams_r high low close p).getD i none =
      some (-100 * (H - close.getD i 0) / (H - L + eps)) := by
  have hzl : i < (williams_r high low close p).length := by
    simp only [williams_r, List.length_zipWith, List.length_zip, rollingMax_length,
      rollingMin_length]
    omega
  rw [List.getD_eq_getElem _ none
    (show i < (rollingMax high p).length by simp only [rollingMax_length]; omega)] at hmax
  rw [List.getD_eq_getElem _ none
    (show i < (rollingMin low p).length by simp only [rollingMin_length]; omega)] at hmin
  rw [List.getD_eq_getElem _ _ hzl]
  simp only [williams_r]
  rw [List.getElem_zipWith, List.getElem_zip]
  rw [List.getD_eq_getElem close _ h3]
  simp only [hmax, hmin]

/-- C10: whenever `low ≤ close ≤ high` pointwise and the window at index
`i` is complete (`i ≥ p-1`), the Williams %R entry is defined and lies in
`(-100, 0]`: the numerator is non-negative and the ε-term makes the ratio
strictly smaller than 1 in magnitude. -/
theorem williams_r_bounded (high low close : List ℚ) (p n i : ℕ)
    (hh : high.length = n) (hl : low.length = n) (hc : close.length = n)
    (hb : ∀ j, j < n → low.getD j 0 ≤ close.getD j 0 ∧ close.getD j 0 ≤ high.getD j 0)
    (hp : 1 ≤ p) (hi : i < n) (hpi : p ≤ i + 1) :
    ∃ w, (williams_r high low close p).getD i none = some w ∧ -100 < w ∧ w ≤ 0 := by
  have hhi : i < high.length := by omega
  have hli : i < low.length := by omega
  have hci : i < close.length := by omega
  obtain ⟨x, xs, hxw⟩ := windowSlice_ne_nil high p i hp hpi hhi
  obtain ⟨y, ys, hyw⟩ := windowSlice_ne_nil low p i hp hpi hli
  set H := xs.foldl max x with hHdef
  set L := ys.foldl min y with hLdef
  have hmax := rollingMax_getD_window high p i hp hpi hhi x xs hxw
  have hmin := rollingMin_getD_window low p i hp hpi hli y ys hyw
  have hH : high.getD i 0 ≤ H := by
    have hm := self_mem_windowSlice high p i hp hpi hhi
    rw [hxw] at hm
    rcases List.mem_cons.mp hm with h | h
    · rw [h]; exact seed_le_foldl_max xs x
    · exact mem_le_foldl_max xs x _ h
  have hL : L ≤ low.getD i 0 := by
    have hm := self_mem_windowSlice low p i hp hpi hli
    rw [hyw] at hm
    rcases List.mem_cons.mp hm with h | h
    · rw [h]; exact foldl_min_le_seed ys y
    · exact foldl_min_le_mem ys y _ h
  have hcb := hb i hi
  have heps : (0 : ℚ) < eps := by norm_num [eps]
  have hcH : close.getD i 0 ≤ H := le_trans hcb.2 hH
  have hLc : L ≤ close.getD i 0 := le_trans hL hcb.1
  have hden : 0 < H - L + eps := by linarith
  refine ⟨-100 * (H - close.getD i 0) / (H - L + eps),
    williams_r_getD high low close p i hhi hli hci H L hmax hmin, ?_, ?_⟩
  · have hlt : (H - close.getD i 0) / (H - L + eps) < 1 := by
      rw [div_lt_one hden]
      linarith
    rw [mul_div_assoc]
    linarith
  · have hq : 0 ≤ (H - close.getD i 0) / (H - L + eps) :=
      div_nonneg (by linarith) (le_of_lt hden)
    rw [mul_div_assoc]
    linarith

/-- C10 witness: `high=[2]`, `low=[1]`, `close=[1]`, `p=1` — the single
entry is `−100/(1+ε)`, inside `(-100, 0]`. -/
theorem williams_r_bounded_witness :
    ([(2 : ℚ)] : List ℚ).length = 1 ∧ (1 : ℕ) ≤ 1 ∧
    (∃ w, (williams_r [(2 : ℚ)] [(1 : ℚ)] [(1 : ℚ)] 1).getD 0 none = some w ∧
      -100 < w ∧ w ≤ 0) :=
  ⟨rfl, le_refl 1,
    williams_r_bounded [(2 : ℚ)] [(1 : ℚ)] [(1 : ℚ)] 1 1 0 rfl rfl rfl
      (by intro j hj; interval_cases j; constructor <;> norm_num)
      (by norm_num) (by norm_num) (by norm_num)⟩

end TechnicalIndicators
